import Mathlib

/-!
Verification development for the `matchtext` gazetteer matcher
(`matchtext/stringmatcher.py` and `matchtext/tokenmatcher.py`).

The Python code is shallowly embedded: the mutable trie becomes a purely
functional tree, the scanning `while` loops of `StringMatcher.find` become
fuel-indexed structural recursions (each loop advances its index by at least
one per iteration, so a fuel of `text.length + 1`, which the wrappers pass,
can never run out), and Python exceptions become `Except`/error components.
Python's dynamically typed entry data is modelled by `PyVal`; the sentinel
`_NOVALUE` stored in trie nodes is modelled by `Option PyVal` being `none`,
which keeps it distinct from Python's `None` (`PyVal.none`), exactly as the
sentinel object does in the source.
-/

set_option linter.unusedVariables false

/-- Dynamically typed Python value, as far as the matcher needs it:
`None`, ints, strings and lists (entry data, default data, matcher data). -/
inductive PyVal where
  | none
  | int (n : Int)
  | str (s : String)
  | list (xs : List PyVal)

/-- Python exceptions raised by the embedded code. -/
inductive PyErr where
  | keyError
  | attributeError
deriving DecidableEq

/-- Python `v is None` test (used by `thisorthat`). -/
def PyVal.isNone : PyVal → Bool
  | .none => true
  | _ => false

/-- `thisorthat(this, that)` from `tokenmatcher.py` lines 18-28 (the
string matcher imports an identically named helper from `matchtext.utils`,
which is not part of the sources; `tokenmatcher.py` contains the same
function): if `this` is `None` take `that`, otherwise take `this`. -/
def thisorthat (this that : PyVal) : PyVal :=
  if this.isNone then that else this

/-- Lookup in an insertion-ordered association list (Python `dict.get`). -/
def alistGet {κ ν : Type} [DecidableEq κ] : List (κ × ν) → κ → Option ν
  | [], _ => Option.none
  | (a, b) :: r, key => if a = key then some b else alistGet r key

/-- Update/insert in an association list (Python `dict[k] = v` /
`dict.setdefault`): an existing key keeps its position, a new key is
appended -- the matcher only ever looks entries up by key, so only the
key-value mapping matters. -/
def alistSet {κ ν : Type} [DecidableEq κ] : List (κ × ν) → κ → ν → List (κ × ν)
  | [], key, v => [(key, v)]
  | (a, b) :: r, key, v =>
    if a = key then (key, v) :: r else (a, b) :: alistSet r key v

namespace stringmatcher

/-- `_Node` from `stringmatcher.py` lines 24-32: children keyed by
character plus a value slot; `value = _NOVALUE` is `Option.none` here. -/
inductive Node where
  | mk (children : List (Char × Node)) (value : Option PyVal)

/-- The `children` slot of a `_Node`. -/
def Node.children : Node → List (Char × Node)
  | .mk cs _ => cs

/-- The `value` slot of a `_Node` (`Option.none` models `_NOVALUE`). -/
def Node.value : Node → Option PyVal
  | .mk _ v => v

/-- A fresh `_Node()`: no children, `value = _NOVALUE`. -/
def Node.empty : Node := .mk [] Option.none

/-- `node.children.get(c)`. -/
def Node.childGet (n : Node) (c : Char) : Option Node :=
  alistGet n.children c

/-- `Match` from `stringmatcher.py` lines 11-18 (the `end` and `match`
fields are Lean keywords, hence the trailing underscores). -/
structure SMMatch where
  start : Nat
  end_ : Nat
  match_ : List Char
  entrydata : PyVal
  matcherdata : PyVal

/-- `StringMatcher` (lines 46-63): the injectable functions, the two data
configurations and the trie root (`_root` in the source). -/
structure SM where
  ignorefunc : Option (Char → Bool)
  mapfunc : Option (Char → Char)
  defaultdata : PyVal
  matcherdata : PyVal
  root : Node

/-- `StringMatcher(ignorefunc, mapfunc, matcherdata, defaultdata)`. -/
def SM.init (ign : Option (Char → Bool)) (mp : Option (Char → Char))
    (matcherdata defaultdata : PyVal) : SM :=
  ⟨ign, mp, defaultdata, matcherdata, Node.empty⟩

/-- `self.ignorefunc and self.ignorefunc(c)`: absent predicate ignores
nothing. -/
def SM.ignf (m : SM) : Char → Bool := fun c =>
  match m.ignorefunc with
  | some f => f c
  | Option.none => false

/-- `if self.mapfunc: c = self.mapfunc(c)`: absent map is the identity. -/
def SM.mapf (m : SM) : Char → Char := fun c =>
  match m.mapfunc with
  | some f => f c
  | Option.none => c

/-- The sequence of trie keys an entry is stored (and looked up) under:
`_get_node` (lines 193-218) skips elements the ignore predicate accepts
(tested on the raw element) and maps each retained element. -/
def effPath (ign : Char → Bool) (mp : Char → Char) (entry : List Char) : List Char :=
  (entry.filter (fun c => ! ign c)).map mp

/-- Exact-path descent of `_get_node` with `create=False`: follow one
child edge per key, `Option.none` when a step has no child. -/
def Node.findPath : Node → List Char → Option Node
  | n, [] => some n
  | n, c :: cs =>
    match n.childGet c with
    | Option.none => Option.none
    | some ch => Node.findPath ch cs

/-- The value stored at the end of a path; missing paths and valueless
nodes both give `Option.none`. -/
def Node.findValue (n : Node) (p : List Char) : Option PyVal :=
  match n.findPath p with
  | Option.none => Option.none
  | some nd => nd.value

/-- The value update of `add` (lines 88-97): on a fresh slot, `append`
wraps the data in a one-element list, otherwise stores it directly; on an
occupied slot, `append` calls `.append` on the stored value -- an
`AttributeError` if that value is not a list (the slot is then left
unchanged, as the exception interrupts the assignment) -- and without
`append` the slot is overwritten. -/
def addVal (append : Bool) (old : Option PyVal) (d : PyVal) :
    Option PyVal × Option PyErr :=
  match old with
  | Option.none =>
    if append then (some (.list [d]), Option.none) else (some d, Option.none)
  | some v =>
    if append then
      match v with
      | .list xs => (some (.list (xs ++ [d])), Option.none)
      | _ => (some v, some .attributeError)
    else (some d, Option.none)

/-- The `create=True` walk of `_get_node` combined with `add`'s value
update: descend along the (already filtered and mapped) path, creating
missing children (`dict.setdefault(el, _Node())`), and update the value of
the terminal node. The error component records an `AttributeError` from
the value update; the created path persists even then, exactly as the
mutations preceding a Python exception do. -/
def addPath (append : Bool) (d : PyVal) : Node → List Char → Node × Option PyErr
  | nd, [] =>
    let r := addVal append nd.value d
    (Node.mk nd.children r.1, r.2)
  | nd, c :: cs =>
    let child := (nd.childGet c).getD Node.empty
    let r := addPath append d child cs
    (Node.mk (alistSet nd.children c r.1) nd.value, r.2)

/-- `StringMatcher.add` (lines 65-97) for a single entry (for a string
argument the source wraps it into a one-element list and runs exactly this
body once; the unused `listdata` parameter is dropped). If every element
is ignored, `_get_node` returns the root itself and the entry is skipped
(`# empty string not allowed`). -/
def SM.add1 (m : SM) (entry : List Char) (d : PyVal) (append : Bool) :
    SM × Option PyErr :=
  match effPath m.ignf m.mapf entry with
  | [] => (m, Option.none)
  | c :: cs =>
    let r := addPath append d m.root (c :: cs)
    ({ m with root := r.1 }, r.2)

/-- `_get_node` with `create=False`: the node for a key, if the path
exists. -/
def SM.getNode (m : SM) (item : List Char) : Option Node :=
  m.root.findPath (effPath m.ignf m.mapf item)

/-- `__getitem__` (lines 179-183): `KeyError` when the path is missing or
the node holds no value. -/
def SM.getitem (m : SM) (item : List Char) : Except PyErr PyVal :=
  match m.getNode item with
  | Option.none => .error .keyError
  | some nd =>
    match nd.value with
    | Option.none => .error .keyError
    | some v => .ok v

/-- `get` (lines 185-191): like `__getitem__` but with a default instead
of the exception. -/
def SM.get (m : SM) (item : List Char) (dflt : PyVal) : PyVal :=
  match m.getNode item with
  | Option.none => dflt
  | some nd =>
    match nd.value with
    | Option.none => dflt
    | some v => v

/-- The `create=True` walk used by `__setitem__`: descend along the path
creating missing children and overwrite the value of the terminal node.
With an empty path this is the root itself -- `__setitem__` has no root
guard. -/
def setPath (v : PyVal) : Node → List Char → Node
  | nd, [] => Node.mk nd.children (some v)
  | nd, c :: cs =>
    let child := (nd.childGet c).getD Node.empty
    Node.mk (alistSet nd.children c (setPath v child cs)) nd.value

/-- `__setitem__` (lines 175-177). -/
def SM.setitem (m : SM) (key : List Char) (v : PyVal) : SM :=
  { m with root := setPath v m.root (effPath m.ignf m.mapf key) }

/-- The inner `while True` advance of `find` (lines 154-164): starting
from walk offset `k`, do `k += 1`; if `i+k` runs past the text, stop with
the node unchanged (the caller then exits on its own length check);
ignored characters are consumed without touching the trie; otherwise step
to the child for the mapped character (possibly absent). The fuel only
bounds the recursion; one unit per consumed position, so any fuel above
`text.length` is enough. -/
def innerAdvance (ign : Char → Bool) (mp : Char → Char) (text : List Char)
    (nd : Node) (i : Nat) : Nat → Nat → Nat × Option Node
  | 0, k => (k + 1, Option.none)
  | fuel + 1, k =>
    let k1 := k + 1
    if h : i + k1 < text.length then
      let c := text.get ⟨i + k1, h⟩
      if ign c then innerAdvance ign mp text nd i fuel k1
      else (k1, nd.childGet (mp c))
    else (k1, some nd)

/-- The candidate-match recording at the top of the walk (lines 140-153):
when the current node carries a value, a `Match(i, i+k+1, text[i:i+k+1],
thisorthat(value, defaultdata), matcherdata)` is built; with `all` it is
emitted immediately (first component), otherwise it replaces the running
longest when its length `k+1` exceeds `longest_len` (which it always
does, as `k` grows through the walk -- the comparison is kept as
written). Returns (emitted now, new longest_len, new longest_match). -/
def recordStep (dd md : PyVal) (all : Bool) (text : List Char)
    (i k ll : Nat) (lo : Option SMMatch) (val : Option PyVal) :
    List SMMatch × Nat × Option SMMatch :=
  match val with
  | some v =>
    let mt : SMMatch :=
      ⟨i, i + k + 1, (text.drop i).take (k + 1), thisorthat v dd, md⟩
    if all then ([mt], ll, lo)
    else if k + 1 > ll then ([], k + 1, some mt)
    else ([], ll, lo)
  | Option.none => ([], ll, lo)

/-- The `while node is not None` walk of `find` (lines 139-166) for one
candidate start index `i`, entered on the child of the root for the first
(mapped) character. Each round first records a candidate match when the
current node carries a value (`recordStep`), then advances with
`innerAdvance`, exiting when the text is exhausted or no child exists.
Returns the matches this start index contributes (for `all=False` the
longest match, appended after the loop, lines 167-168) together with the
final walk offset `k`, which the skip advance of line 170 uses. -/
def walkLoop (ign : Char → Bool) (mp : Char → Char) (dd md : PyVal)
    (all : Bool) (text : List Char) (i : Nat) :
    Nat → Node → Nat → Nat → Option SMMatch → List SMMatch × Nat
  | 0, _, k, _, lo => ((if all then [] else lo.toList), k)
  | fuel + 1, nd, k, ll, lo =>
    let s := recordStep dd md all text i k ll lo nd.value
    let st := innerAdvance ign mp text nd i (text.length + 1) k
    if text.length ≤ i + st.1 then
      (s.1 ++ (if all then [] else s.2.2.toList), st.1)
    else
      match st.2 with
      | Option.none => (s.1 ++ (if all then [] else s.2.2.toList), st.1)
      | some nd2 =>
        let r := walkLoop ign mp dd md all text i fuel nd2 st.1 s.2.1 s.2.2
        (s.1 ++ r.1, r.2)

/-- One candidate start index of `find` (lines 132-168): map the (already
non-ignored) character at `i`, enter the trie at the root's child for it
(no walk at all when absent, leaving `k = 0`), and run the walk. -/
def scanAt (m : SM) (text : List Char) (all : Bool) (i : Nat) :
    List SMMatch × Nat :=
  if h : i < text.length then
    match m.root.childGet (m.mapf (text.get ⟨i, h⟩)) with
    | Option.none => ([], 0)
    | some nd =>
      walkLoop m.ignf m.mapf m.defaultdata m.matcherdata all text i
        (text.length + 1) nd 0 0 Option.none
  else ([], 0)

/-- The outer `while i < toidx` loop of `find` (lines 127-172): ignored
characters advance `i` by one without attempting a match; otherwise the
candidate scan runs and `i` advances by `max(k, 1)` in skip mode, by `1`
otherwise. The wrapper always clamps `toidx` below `text.length`, so the
bounds-check branch returning `acc` is never taken from `SM.find`. -/
def findLoop (m : SM) (text : List Char) (all skip : Bool) (toidx : Nat) :
    Nat → Nat → List SMMatch → List SMMatch
  | 0, _, acc => acc
  | fuel + 1, i, acc =>
    if i < toidx then
      if h : i < text.length then
        if m.ignf (text.get ⟨i, h⟩) then
          findLoop m text all skip toidx fuel (i + 1) acc
        else
          let r := scanAt m text all i
          findLoop m text all skip toidx fuel
            (if skip then i + max r.2 1 else i + 1) (acc ++ r.1)
      else acc
    else acc

/-- `StringMatcher.find` (lines 99-173): `fromidx`/`toidx` default to `0`
and `len(text)-1`, `fromidx >= len(text)` and `fromidx > toidx` return no
matches, `toidx` is clamped to the last valid index, then the scan loop
runs. Note the loop condition is `i < toidx`, so the index `toidx` itself
never starts a match. -/
def SM.find (m : SM) (text : List Char) (all skip : Bool)
    (fromidx toidx : Option Nat) : List SMMatch :=
  let l := text.length
  let f := fromidx.getD 0
  let t0 := toidx.getD (l - 1)
  if l ≤ f then []
  else
    let t := if l ≤ t0 then l - 1 else t0
    if t < f then []
    else findLoop m text all skip t (l + 1) f []

mutual
/-- Python `repr`, for the kinds of values `PyVal` covers (string escaping
inside `repr` of a string is simplified to plain quoting; `replace` only
ever renders entry data). -/
def pyRepr : PyVal → List Char
  | .none => "None".data
  | .int n => (toString n).data
  | .str s => '\'' :: (s.data ++ ['\''])
  | .list xs => '[' :: (pyReprList xs ++ [']'])
/-- Comma-separated rendering of the elements of a Python list. -/
def pyReprList : List PyVal → List Char
  | [] => []
  | [x] => pyRepr x
  | x :: y :: r => pyRepr x ++ ", ".data ++ pyReprList (y :: r)
end

/-- Python `str`: like `repr` except on strings themselves. -/
def pyStr : PyVal → List Char
  | .str s => s.data
  | v => pyRepr v

/-- `StringMatcher.replace` (lines 220-238) with the default getter and
replacer: find with `all=False, skip=True`, then stitch the unmatched
slices and `str(match.entrydata)` together (the source collects the parts
in a list and joins them at the end; here they are concatenated
directly, which is the same string). -/
def SM.replace (m : SM) (text : List Char) (fromidx toidx : Option Nat) :
    List Char :=
  let ms := m.find text false true fromidx toidx
  if ms.length = 0 then text
  else
    let r := ms.foldl
      (fun (st : List Char × Nat) (mt : SMMatch) =>
        let parts :=
          if st.2 < mt.start then
            st.1 ++ (text.drop st.2).take (mt.start - st.2)
          else st.1
        if st.2 ≤ mt.start then (parts ++ pyStr mt.entrydata, mt.end_)
        else (parts, st.2))
      ([], 0)
    if r.2 < text.length then r.1 ++ text.drop r.2 else r.1

/-- A public operation on a `StringMatcher`, for stating invariants over
operation sequences. -/
inductive SOp where
  | addOp (entry : List Char) (d : PyVal) (append : Bool)
  | setOp (key : List Char) (v : PyVal)
  | findOp (text : List Char) (all skip : Bool) (fromidx toidx : Option Nat)
  | replaceOp (text : List Char) (fromidx toidx : Option Nat)
  | getOp (key : List Char) (dflt : PyVal)
  | getitemOp (key : List Char)

/-- The state transition of one public operation: `add` and `__setitem__`
mutate the trie (for an erroring `add` the state reached before the
exception persists, which `add1`'s first component is); `find`, `replace`,
`get` and `__getitem__` never assign into any node (lines 99-173, 179-191,
220-238 only read), so they leave the matcher unchanged. -/
def SM.step (m : SM) : SOp → SM
  | .addOp e d a => (m.add1 e d a).1
  | .setOp k v => m.setitem k v
  | .findOp _ _ _ _ _ => m
  | .replaceOp _ _ _ => m
  | .getOp _ _ => m
  | .getitemOp _ => m

/-- `add(entry, d, append=True)` called once per element of `ds`, in
order; the boolean records that no call raised. -/
def SM.addAll (m : SM) (entry : List Char) : List PyVal → SM × Bool
  | [] => (m, true)
  | d :: ds =>
    let r := m.add1 entry d true
    let rest := SM.addAll r.1 entry ds
    (rest.1, r.2.isNone && rest.2)

/-- The non-overlap property of a match list: every consecutive pair
`m1, m2` satisfies `m2.start >= m1.end`. -/
def chainOk : List SMMatch → Bool
  | [] => true
  | [_] => true
  | a :: b :: r => (a.end_ ≤ b.start) && chainOk (b :: r)

/-- The two "key not found" situations of the spec: no trie path for the
key, or a path whose terminal node carries no entry data. -/
def SM.keyAbsent (m : SM) (item : List Char) : Prop :=
  m.getNode item = Option.none ∨
    ∃ nd, m.getNode item = some nd ∧ nd.value = Option.none

/-- A fresh default-configured `StringMatcher()`. -/
def smFresh : SM := SM.init Option.none Option.none .none .none

/-- The matcher of the spec's concrete scenarios: entries
`this→0, word→1, words→2, thisis→3, his→4`. -/
def smWords : SM :=
  [("this", 0), ("word", 1), ("words", 2), ("thisis", 3), ("his", 4)].foldl
    (fun m e => (SM.add1 m e.1.toList (.int e.2) false).1) smFresh

/-- A matcher holding the single entry `"a" → 0`. -/
def smSingleA : SM := (SM.add1 smFresh ['a'] (.int 0) false).1

/-- A matcher holding `"abcd" → 0` and `"b" → 1`: on `"abc"` the trie
walk from index 0 consumes three characters and then fails without any
completed match. -/
def smWalk : SM :=
  [("abcd", 0), ("b", 1)].foldl
    (fun m e => (SM.add1 m e.1.toList (.int e.2) false).1) smFresh

/-- A matcher holding `"this" → 0` and `"thisis" → 3`: at start index 0
of `"thisis a"` both entries match, a nested overlap. -/
def smNested : SM :=
  [("this", 0), ("thisis", 3)].foldl
    (fun m e => (SM.add1 m e.1.toList (.int e.2) false).1) smFresh

/-- A matcher holding the single entry `"ab" → 7`. -/
def smAB : SM := (SM.add1 smFresh "ab".toList (.int 7) false).1

/-- A string matcher that ignores the character `x`. -/
def smIgnoreX : SM := SM.init (some (fun c => c == 'x')) Option.none .none .none

end stringmatcher

namespace tokenmatcher

/-- `Node` from `tokenmatcher.py` lines 31-43: slots `isMatch`, `data`,
`nodes`. `isMatch` defaults to `None` and is only ever set to `True`, and
the code only tests its truthiness, so a `Bool` (with `false` for `None`)
is faithful. `data` defaults to Python `None` (`PyVal.none`); `nodes` is
`None` or a dict of continuation nodes. The class defines no
`continuations` slot -- `find` reading one raises `AttributeError`. -/
inductive Node where
  | mk (isMatch : Bool) (data : PyVal) (nodes : Option (List (String × Node)))

/-- The `isMatch` slot. -/
def Node.isMatch : Node → Bool
  | .mk b _ _ => b

/-- The `data` slot. -/
def Node.data : Node → PyVal
  | .mk _ d _ => d

/-- The `nodes` slot. -/
def Node.nodes : Node → Option (List (String × Node))
  | .mk _ _ ns => ns

/-- A fresh `Node()`. -/
def Node.empty : Node := .mk false .none Option.none

/-- The `Match` namedtuple from `tokenmatcher.py` line 15. -/
structure TMMatch where
  tokens : List String
  start : Nat
  end_ : Nat
  entrydata : PyVal
  matcherdata : PyVal

/-- `TokenMatcher` (lines 52-70): `_dict` maps the first token of each
entry to its `Node`. -/
structure TM where
  dict : List (String × Node)
  ignorefunc : Option (String → Bool)
  mapfunc : Option (String → String)
  defaultdata : PyVal
  matcherdata : PyVal

/-- `TokenMatcher(ignorefunc, mapfunc, matcherdata, defaultdata)`. -/
def TM.init (ign : Option (String → Bool)) (mp : Option (String → String))
    (matcherdata defaultdata : PyVal) : TM :=
  ⟨[], ign, mp, defaultdata, matcherdata⟩

/-- `self.ignorefunc is not None and self.ignorefunc(t)`. -/
def TM.ignf (m : TM) : String → Bool := fun t =>
  match m.ignorefunc with
  | some f => f t
  | Option.none => false

/-- `if self.mapfunc is not None: t = self.mapfunc(t)`. -/
def TM.mapf (m : TM) : String → String := fun t =>
  match m.mapfunc with
  | some f => f t
  | Option.none => t

/-- The retained tokens of an entry in `TokenMatcher.add` (lines 84-88):
here the map function is applied FIRST and the ignore predicate is tested
on the mapped token (the string matcher does it the other way around). -/
def effToks (m : TM) (entry : List String) : List String :=
  (entry.map m.mapf).filter (fun t => ! m.ignf t)

/-- The descent of `TokenMatcher.add` below the first token (lines
91-99): a `None` `nodes` slot is replaced by a dict holding the one new
child; an existing dict is a `defaultdict(Node)`, so indexing creates a
fresh node for an absent token. At the end of the path, `node.data = data;
node.isMatch = True` (lines 100-101). -/
def tAddPath (d : PyVal) : Node → List String → Node
  | nd, [] => Node.mk true d nd.nodes
  | nd, t :: rest =>
    match nd.nodes with
    | Option.none =>
      Node.mk nd.isMatch nd.data (some [(t, tAddPath d Node.empty rest)])
    | some ns =>
      Node.mk nd.isMatch nd.data
        (some (alistSet ns t
          (tAddPath d ((alistGet ns t).getD Node.empty) rest)))

/-- `TokenMatcher.add` (lines 72-101) for a single entry (a string
argument is wrapped into a one-element list by the source). When every
token is ignored -- in particular for an empty entry -- the loop leaves
`node = None` and line 100 (`node.data = data`) raises `AttributeError`,
despite the docstring's "If all elements of the entry are ignored,
nothing is done". Otherwise the first retained token indexes the
`defaultdict` `_dict` and the rest descend via `tAddPath`. -/
def TM.add (m : TM) (entry : List String) (d : PyVal) : Except PyErr TM :=
  match effToks m entry with
  | [] => .error .attributeError
  | t :: rest =>
    .ok { m with
      dict := alistSet m.dict t
        (tAddPath d ((alistGet m.dict t).getD Node.empty) rest) }

/-- `add` on an entry that is known to succeed (used to build concrete
matchers). -/
def TM.addOk (m : TM) (entry : List String) (d : PyVal) : TM :=
  (m.add entry d).toOption.getD m

/-- The `for i, token in enumerate(tokens)` loop of `TokenMatcher.find`
(lines 116-158): a token whose mapped form is not a key of `_dict` is
passed over; for a token that is a key, the code builds `thismatches`
(one single-token match when `node.isMatch`) and then evaluates
`if node.continuations:` -- but `Node.__slots__` is
`("isMatch", "data", "nodes")`, so the attribute read raises
`AttributeError`, discarding `thismatches` and aborting the whole call. -/
def TM.findLoop (m : TM) : List String → Nat → List TMMatch →
    Except PyErr (List TMMatch)
  | [], _, acc => .ok acc
  | tok :: rest, i, acc =>
    let t := m.mapf tok
    match alistGet m.dict t with
    | Option.none => TM.findLoop m rest (i + 1) acc
    | some nd =>
      let thismatches : List TMMatch :=
        if nd.isMatch then
          [⟨[t], i, i + 1, thisorthat nd.data m.defaultdata, m.matcherdata⟩]
        else []
      .error .attributeError

/-- `TokenMatcher.find` (lines 103-159). Its signature has no `skip`
parameter, and the body never reads `all`, `fromidx` or `toidx`. -/
def TM.find (m : TM) (tokens : List String) (all : Bool)
    (fromidx toidx : Option Nat) : Except PyErr (List TMMatch) :=
  TM.findLoop m tokens 0 []

/-- `str.lower` as used for the case-insensitive map function. -/
def strLower (s : String) : String := ⟨s.data.map Char.toLower⟩

/-- The token matcher of the spec's token scenario: case-insensitive map,
entries `Some→0, word→1, to→2, add→3, [some, word]→4` (all five `add`
calls succeed, so `addOk` builds the same matcher the source would). -/
def tmScenario : TM :=
  [(["Some"], 0), (["word"], 1), (["to"], 2), (["add"], 3),
    (["some", "word"], 4)].foldl
    (fun m e => m.addOk e.1 (.int e.2))
    (TM.init Option.none (some strLower) .none .none)

/-- A token matcher that ignores the token `"x"`. -/
def tmIgnoreX : TM := TM.init (some (fun t => t == "x")) Option.none .none .none

/-- A token matcher holding the single entry `["a"] → 1`. -/
def tmSingleA : TM :=
  (TM.init Option.none Option.none .none .none).addOk ["a"] (.int 1)

end tokenmatcher

/-! ## Helper lemmas -/

/-- Updating a key and then reading it gives the written value. -/
theorem alistGet_set_self {κ ν : Type} [DecidableEq κ]
    (l : List (κ × ν)) (k : κ) (v : ν) : alistGet (alistSet l k v) k = some v := by
  induction l with
  | nil => simp [alistSet, alistGet]
  | cons hd tl ih =>
    by_cases h : hd.1 = k
    · simp [alistSet, alistGet, h]
    · simpa [alistSet, alistGet, h] using ih

namespace stringmatcher

@[simp]
theorem Node.children_mk (cs : List (Char × Node)) (v : Option PyVal) :
    (Node.mk cs v).children = cs := rfl

@[simp]
theorem Node.value_mk (cs : List (Char × Node)) (v : Option PyVal) :
    (Node.mk cs v).value = v := rfl

/-! ## Claim C1 -/

/-- Claim C1 is violated by the code: the scan loop of
`StringMatcher.find` is `while i < toidx` (line 127), so a match can
never start at `toidx` itself even though the docstring calls `toidx`
"the last index actually used". On the length-1 text `"a"`, `toidx` is
clamped to `0` and the loop body never runs, so the entry `"a"` (which
the trie demonstrably holds, second conjunct) is not found. -/
theorem C1_toidx_never_starts_match :
    SM.find smSingleA ['a'] false true Option.none Option.none = [] ∧
    SM.getitem smSingleA ['a'] = .ok (.int 0) :=
  ⟨rfl, rfl⟩

/-! ## Claim C8 -/

/-- Claim C8: with entries `this→0, word→1, words→2, thisis→3, his→4`,
`replace("thisis a word")` with the default replacer returns `"3 a 1"`. -/
theorem C8_replace_scenario :
    SM.replace smWords "thisis a word".toList Option.none Option.none
      = "3 a 1".toList := rfl

/-! ## Counterexamples for C2, C4, C9 -/

/-- Counterexample to claim C2 as stated: with entries `abcd→0, b→1` on
the text `"abc"`, the candidate scan at index 0 completes no match (first
conjunct) yet its walk offset `k` is `3`, so the skip advance
`i += max(k, 1)` of line 170 moves the start index by `3`, not by `1`
(second conjunct). Consequently `find("abc", all=False, skip=True)` jumps
straight over index 1 and returns nothing (third conjunct), although the
entry `"b"` matches there, as the `skip=False` scan shows (fourth
conjunct). -/
theorem C2_cex_no_match_advances_by_walk :
    (scanAt smWalk "abc".toList false 0).1 = [] ∧
    max (scanAt smWalk "abc".toList false 0).2 1 = 3 ∧
    SM.find smWalk "abc".toList false true Option.none Option.none = [] ∧
    SM.find smWalk "abc".toList false false Option.none Option.none
      = [⟨1, 2, ['b'], .int 1, .none⟩] :=
  ⟨rfl, rfl, rfl, rfl⟩

/-- Counterexample to claim C4 as stated: `__setitem__` has no root
guard, so `sm[""] = 5` on a fresh matcher stores entry data directly on
the root node. -/
theorem C4_cex_setitem_empty_key_hits_root :
    ([SOp.setOp [] (.int 5)].foldl SM.step smFresh).root.value
      = some (.int 5) := rfl

/-- Counterexample to claim C9 as stated: with entries `this→0, thisis→3`
the call `find("thisis a", all=True, skip=True)` returns the two matches
`(0, 4)` and `(0, 6)` from the same start index, and the second starts
before the first ends. -/
theorem C9_cex_all_skip_overlap :
    chainOk (SM.find smNested "thisis a".toList true true
      Option.none Option.none) = false := rfl

end stringmatcher

namespace tokenmatcher

/-! ## Claim C3 -/

/-- Claim C3 is violated by the code: on the token scenario
(`Some→0, word→1, to→2, add→3, [some, word]→4`, case-insensitive map),
`find(["This", "contains", "Some", "text"])` does not return the match
`(2, 3, 0)` -- as soon as the scan reaches `"Some"` (mapped to `"some"`,
a key of `_dict`), line 125 reads `node.continuations`, an attribute the
slotted `Node` class never defines, and the call dies with
`AttributeError`. (The call of the claim cannot even be written as given:
`find` has no `skip` parameter, so passing `skip=true` is a
`TypeError`.) -/
theorem C3_token_scenario_raises :
    TM.find tmScenario ["This", "contains", "Some", "text"] false
      Option.none Option.none = .error .attributeError := rfl

/-! ## Claim C5 -/

/-- Claim C5 holds for the string matcher but the token matcher violates
its own docstring ("If all elements of the entry are ignored, nothing is
done"): with `"x"` ignored, `add(["x"], 1)` -- and likewise `add([], 1)`
-- leaves `node = None` through the whole token loop and then executes
`node.data = data` (line 100), raising `AttributeError` instead of being
a silent no-op. The string matcher's `add` (third conjunct) really is a
silent no-op on the same shape of input. -/
theorem C5_all_ignored_add :
    TM.add tmIgnoreX ["x"] (.int 1) = .error .attributeError ∧
    TM.add tmIgnoreX [] (.int 1) = .error .attributeError ∧
    stringmatcher.SM.add1 stringmatcher.smIgnoreX ['x'] (.int 1) false
      = (stringmatcher.smIgnoreX, Option.none) :=
  ⟨rfl, rfl, rfl⟩

end tokenmatcher

namespace stringmatcher

/-! ## The walk bounds: the final walk offset dominates every match
recorded at a start index -/

/-- The inner advance moves the walk offset forward by at least one. -/
theorem innerAdvance_ge (ign : Char → Bool) (mp : Char → Char)
    (text : List Char) (nd : Node) (i : Nat) :
    ∀ fuel k, k + 1 ≤ (innerAdvance ign mp text nd i fuel k).1 := by
  intro fuel
  induction fuel with
  | zero => intro k; simp [innerAdvance]
  | succ fuel ih =>
    intro k
    simp only [innerAdvance]
    split
    · split
      · exact Nat.le_trans (Nat.le_succ _) (ih (k + 1))
      · simp
    · simp

/-- Every match emitted by the recording step starts at `i` and ends at
`i + k + 1`. -/
theorem recordStep_emit_mem (dd md : PyVal) (all : Bool) (text : List Char)
    (i k ll : Nat) (lo : Option SMMatch) (val : Option PyVal) :
    ∀ mt ∈ (recordStep dd md all text i k ll lo val).1,
      mt.start = i ∧ mt.end_ = i + k + 1 := by
  intro mt hmt
  cases val with
  | none => simp [recordStep] at hmt
  | some v =>
    simp only [recordStep] at hmt
    split at hmt
    · rcases List.mem_singleton.mp hmt with rfl
      exact ⟨rfl, rfl⟩
    · split at hmt <;> simp at hmt

/-- With `all=False` the recording step emits nothing immediately. -/
theorem recordStep_not_all (dd md : PyVal) (text : List Char)
    (i k ll : Nat) (lo : Option SMMatch) (val : Option PyVal) :
    (recordStep dd md false text i k ll lo val).1 = [] := by
  cases val with
  | none => rfl
  | some v =>
    simp only [recordStep, if_neg (by simp : ¬(false = true))]
    split <;> rfl

/-- The running longest match (after one recording step) starts at `i`
and ends no later than `i + k + 1`. -/
theorem recordStep_lo_bound (dd md : PyVal) (all : Bool) (text : List Char)
    (i k ll : Nat) (lo : Option SMMatch) (val : Option PyVal)
    (hlo : ∀ mt, lo = some mt → mt.start = i ∧ mt.end_ ≤ i + k) :
    ∀ mt, (recordStep dd md all text i k ll lo val).2.2 = some mt →
      mt.start = i ∧ mt.end_ ≤ i + k + 1 := by
  intro mt h
  cases val with
  | none =>
    rcases hlo mt h with ⟨h1, h2⟩
    exact ⟨h1, by omega⟩
  | some v =>
    simp only [recordStep] at h
    split at h
    · rcases hlo mt h with ⟨h1, h2⟩
      exact ⟨h1, by omega⟩
    · split at h
      · rcases Option.some.inj h with rfl
        exact ⟨rfl, Nat.le_refl _⟩
      · rcases hlo mt h with ⟨h1, h2⟩
        exact ⟨h1, by omega⟩

/-- The final walk offset never decreases. -/
theorem walkLoop_k_ge (ign : Char → Bool) (mp : Char → Char) (dd md : PyVal)
    (all : Bool) (text : List Char) (i : Nat) :
    ∀ fuel (nd : Node) k ll lo ms kf,
      walkLoop ign mp dd md all text i fuel nd k ll lo = (ms, kf) →
      k ≤ kf := by
  intro fuel
  induction fuel with
  | zero =>
    intro nd k ll lo ms kf heq
    injection heq with h1 h2
    omega
  | succ fuel ih =>
    intro nd k ll lo ms kf heq
    have hst := innerAdvance_ge ign mp text nd i (text.length + 1) k
    simp only [walkLoop] at heq
    rcases hs : recordStep dd md all text i k ll lo nd.value with ⟨emit, ll1, lo1⟩
    rcases hi : innerAdvance ign mp text nd i (text.length + 1) k with ⟨k1, ndo⟩
    rw [hi] at hst
    rw [hs, hi] at heq
    dsimp only at heq hst
    split at heq
    · injection heq with h1 h2; omega
    · cases ndo with
      | none =>
        dsimp only at heq
        injection heq with h1 h2; omega
      | some ch =>
        dsimp only at heq
        rcases hw : walkLoop ign mp dd md all text i fuel ch k1 ll1 lo1
          with ⟨ms', kf'⟩
        rw [hw] at heq
        injection heq with h1 h2
        have hr := ih ch k1 ll1 lo1 ms' kf' hw
        omega

/-- Every match produced by the walk from offset `k` starts at `i` and
ends no later than `i` plus the final walk offset. -/
theorem walkLoop_mem (ign : Char → Bool) (mp : Char → Char) (dd md : PyVal)
    (all : Bool) (text : List Char) (i : Nat) :
    ∀ fuel (nd : Node) k ll lo ms kf,
      walkLoop ign mp dd md all text i fuel nd k ll lo = (ms, kf) →
      (∀ mt0, lo = some mt0 → mt0.start = i ∧ mt0.end_ ≤ i + k) →
      ∀ mt ∈ ms, mt.start = i ∧ mt.end_ ≤ i + kf := by
  intro fuel
  induction fuel with
  | zero =>
    intro nd k ll lo ms kf heq hlo mt hmt
    injection heq with h1 h2
    subst h1; subst h2
    rcases hall : all with _ | _ <;> subst hall
    · rcases hlo mt (by simpa using hmt) with ⟨ha, hb⟩
      exact ⟨ha, hb⟩
    · simp at hmt
  | succ fuel ih =>
    intro nd k ll lo ms kf heq hlo mt hmt
    have hst := innerAdvance_ge ign mp text nd i (text.length + 1) k
    have hemit := recordStep_emit_mem dd md all text i k ll lo nd.value
    have hlo1 := recordStep_lo_bound dd md all text i k ll lo nd.value hlo
    simp only [walkLoop] at heq
    rcases hs : recordStep dd md all text i k ll lo nd.value with ⟨emit, ll1, lo1⟩
    rcases hi : innerAdvance ign mp text nd i (text.length + 1) k with ⟨k1, ndo⟩
    rw [hi] at hst
    rw [hs] at hemit hlo1
    rw [hs, hi] at heq
    dsimp only at heq hst hemit hlo1
    split at heq
    · injection heq with h1 h2
      subst h1; subst h2
      rcases List.mem_append.mp hmt with hm | hm
      · rcases hemit mt hm with ⟨ha, hb⟩
        exact ⟨ha, by omega⟩
      · rcases hall : all with _ | _ <;> subst hall
        · rcases hlo1 mt (by simpa using hm) with ⟨ha, hb⟩
          exact ⟨ha, by omega⟩
        · simp at hm
    · cases ndo with
      | none =>
        dsimp only at heq
        injection heq with h1 h2
        subst h1; subst h2
        rcases List.mem_append.mp hmt with hm | hm
        · rcases hemit mt hm with ⟨ha, hb⟩
          exact ⟨ha, by omega⟩
        · rcases hall : all with _ | _ <;> subst hall
          · rcases hlo1 mt (by simpa using hm) with ⟨ha, hb⟩
            exact ⟨ha, by omega⟩
          · simp at hm
      | some ch =>
        dsimp only at heq
        rcases hw : walkLoop ign mp dd md all text i fuel ch k1 ll1 lo1
          with ⟨ms', kf'⟩
        rw [hw] at heq
        injection heq with h1 h2
        subst h1; subst h2
        rcases List.mem_append.mp hmt with hm | hm
        · rcases hemit mt hm with ⟨ha, hb⟩
          refine ⟨ha, ?_⟩
          have hr := walkLoop_k_ge ign mp dd md all text i fuel ch k1 ll1 lo1
            ms' kf' hw
          omega
        · exact ih ch k1 ll1 lo1 ms' kf' hw
            (fun mt0 h0 => by
              rcases hlo1 mt0 h0 with ⟨ha, hb⟩
              exact ⟨ha, by omega⟩)
            mt hm

/-- With `all=False` the walk result is the final running longest match
(empty or a single match). -/
theorem walkLoop_not_all (ign : Char → Bool) (mp : Char → Char)
    (dd md : PyVal) (text : List Char) (i : Nat) :
    ∀ fuel (nd : Node) k ll lo ms kf,
      walkLoop ign mp dd md false text i fuel nd k ll lo = (ms, kf) →
      ∃ lo' : Option SMMatch, ms = lo'.toList := by
  intro fuel
  induction fuel with
  | zero =>
    intro nd k ll lo ms kf heq
    injection heq with h1 h2
    exact ⟨lo, by simp [h1.symm]⟩
  | succ fuel ih =>
    intro nd k ll lo ms kf heq
    have hrec := recordStep_not_all dd md text i k ll lo nd.value
    simp only [walkLoop] at heq
    rcases hs : recordStep dd md false text i k ll lo nd.value with ⟨emit, ll1, lo1⟩
    rcases hi : innerAdvance ign mp text nd i (text.length + 1) k with ⟨k1, ndo⟩
    rw [hs] at hrec
    rw [hs, hi] at heq
    dsimp only at heq hrec
    subst hrec
    split at heq
    · injection heq with h1 h2
      exact ⟨lo1, by simp [h1.symm]⟩
    · cases ndo with
      | none =>
        dsimp only at heq
        injection heq with h1 h2
        exact ⟨lo1, by simp [h1.symm]⟩
      | some ch =>
        dsimp only at heq
        rcases hw : walkLoop ign mp dd md false text i fuel ch k1 ll1 lo1
          with ⟨ms', kf'⟩
        rw [hw] at heq
        injection heq with h1 h2
        rcases ih ch k1 ll1 lo1 ms' kf' hw with ⟨lo', hlo'⟩
        exact ⟨lo', by rw [h1.symm, hlo']; simp⟩

/-- Every match the candidate scan at `i` produces starts at `i` and ends
no later than `i + max(k, 1)`, the very amount the skip mode advances
by. -/
theorem scanAt_mem (m : SM) (text : List Char) (all : Bool) (i : Nat)
    (mt : SMMatch) (hmt : mt ∈ (scanAt m text all i).1) :
    mt.start = i ∧ mt.end_ ≤ i + max (scanAt m text all i).2 1 := by
  rcases hsc : scanAt m text all i with ⟨ms, kf⟩
  rw [hsc] at hmt
  dsimp only at hmt ⊢
  unfold scanAt at hsc
  split at hsc
  · split at hsc
    · injection hsc with h1 h2
      rw [h1.symm] at hmt
      simp at hmt
    · next ch hch =>
      have hb := walkLoop_mem m.ignf m.mapf m.defaultdata m.matcherdata all
        text i (text.length + 1) ch 0 0 Option.none ms kf hsc
        (fun mt0 h0 => by simp at h0) mt hmt
      exact ⟨hb.1, Nat.le_trans hb.2 (by
        have := Nat.le_max_left kf 1; omega)⟩
  · injection hsc with h1 h2
    rw [h1.symm] at hmt
    simp at hmt

/-- With `all=False` the candidate scan contributes at most one match. -/
theorem scanAt_not_all (m : SM) (text : List Char) (i : Nat) :
    ∃ lo' : Option SMMatch, (scanAt m text false i).1 = lo'.toList := by
  rcases hsc : scanAt m text false i with ⟨ms, kf⟩
  dsimp only
  unfold scanAt at hsc
  split at hsc
  · split at hsc
    · injection hsc with h1 h2
      exact ⟨Option.none, by simp [h1.symm]⟩
    · next ch hch =>
      exact walkLoop_not_all m.ignf m.mapf m.defaultdata m.matcherdata
        text i (text.length + 1) ch 0 0 Option.none ms kf hsc
  · injection hsc with h1 h2
    exact ⟨Option.none, by simp [h1.symm]⟩

/-! ## Skip-mode non-overlap (claims C2, C9) -/

/-- Appending one match that starts after every end of a non-overlapping
list keeps it non-overlapping. -/
theorem chainOk_append_one :
    ∀ (acc : List SMMatch) (x : SMMatch), chainOk acc = true →
      (∀ mt ∈ acc, mt.end_ ≤ x.start) → chainOk (acc ++ [x]) = true
  | [], x, _, _ => rfl
  | [a], x, h1, h2 => by
    have ha := h2 a (by simp)
    simp [chainOk, ha]
  | a :: b :: r, x, h1, h2 => by
    rw [chainOk, Bool.and_eq_true] at h1
    rcases h1 with ⟨hab, hrest⟩
    have htail := chainOk_append_one (b :: r) x hrest
      (fun mt hm => h2 mt (List.mem_cons_of_mem a hm))
    simp only [List.cons_append] at htail ⊢
    rw [chainOk, Bool.and_eq_true]
    exact ⟨hab, htail⟩

/-- Every element of a list extended by one new element satisfies a bound
transported from the two parts. -/
theorem mem_append_one_bound (acc : List SMMatch) (x : SMMatch)
    (bound : Nat) (hacc : ∀ mt ∈ acc, mt.end_ ≤ bound)
    (hx : x.end_ ≤ bound) : ∀ mt ∈ acc ++ [x], mt.end_ ≤ bound := by
  intro mt hm
  rcases List.mem_append.mp hm with h | h
  · exact hacc mt h
  · rcases List.mem_singleton.mp h with rfl
    exact hx

/-- The scan loop in skip mode with `all=False` keeps the accumulated
match list non-overlapping. -/
theorem findLoop_chain (m : SM) (text : List Char) (toidx : Nat) :
    ∀ fuel i (acc : List SMMatch), chainOk acc = true →
      (∀ mt ∈ acc, mt.end_ ≤ i) →
      chainOk (findLoop m text false true toidx fuel i acc) = true := by
  intro fuel
  induction fuel with
  | zero => intro i acc h1 h2; simpa [findLoop] using h1
  | succ fuel ih =>
    intro i acc h1 h2
    simp only [findLoop]
    split
    · split
      · split
        · exact ih (i + 1) acc h1 (fun mt hm => Nat.le_trans (h2 mt hm) (by omega))
        · rcases scanAt_not_all m text i with ⟨lo', hlo'⟩
          have hmem := scanAt_mem m text false i
          rcases hsc : scanAt m text false i with ⟨ms, kf⟩
          rw [hsc] at hlo' hmem
          dsimp only at hlo' hmem
          subst hlo'
          cases lo' with
          | none =>
            simp only [Option.toList_none, List.append_nil]
            exact ih (i + max kf 1) acc h1
              (fun mt hm => Nat.le_trans (h2 mt hm) (by omega))
          | some lm =>
            have hb := hmem lm (by simp)
            have hchain : chainOk (acc ++ [lm]) = true :=
              chainOk_append_one acc lm h1
                (fun mt hm => by rw [hb.1]; exact h2 mt hm)
            have hbound : ∀ mt ∈ acc ++ [lm], mt.end_ ≤ i + max kf 1 :=
              mem_append_one_bound acc lm _
                (fun mt hm => Nat.le_trans (h2 mt hm)
                  (by have := Nat.le_max_right kf 1; omega))
                hb.2
            exact ih (i + max kf 1) (acc ++ [lm]) hchain hbound
      · exact h1
    · exact h1

/-! ## Claim C2 (amended) and claim C9 (amended) -/

/-- Claim C2, amended as the counterexample forces: after processing a
candidate start index `i` in skip mode, the start index advances by
`max(1, k)` where `k` is the walk offset at which the trie walk stopped
-- not by the matched length, and not by 1 on failure. What remains true
is that this advance is at least 1 and at least the length of every match
completed at `i` (every such match starts at `i` and ends no later than
`i + max(k, 1)`), so skipping never re-enters a reported match. -/
theorem C2_amended_advance_bound (m : SM) (text : List Char) (all : Bool)
    (i : Nat) (mt : SMMatch) (hmt : mt ∈ (scanAt m text all i).1) :
    mt.start = i ∧ mt.end_ ≤ i + max (scanAt m text all i).2 1 ∧
      1 ≤ max (scanAt m text all i).2 1 := by
  rcases scanAt_mem m text all i mt hmt with ⟨h1, h2⟩
  exact ⟨h1, h2, Nat.le_max_right _ 1⟩

/-- Witness for the amended C2 at a concrete input: the single match of
`smAB` on `"abc"` at start 0. -/
theorem C2_amended_witness :
    (⟨0, 2, ['a', 'b'], .int 7, .none⟩ : SMMatch).start = 0 ∧
    (⟨0, 2, ['a', 'b'], .int 7, .none⟩ : SMMatch).end_
        ≤ 0 + max (scanAt smAB "abc".toList false 0).2 1 ∧
    1 ≤ max (scanAt smAB "abc".toList false 0).2 1 :=
  C2_amended_advance_bound smAB "abc".toList false 0
    ⟨0, 2, ['a', 'b'], .int 7, .none⟩ (List.mem_singleton.mpr rfl)

/-- Claim C9, amended as the counterexample forces: the skip-mode
non-overlap guarantee holds for `all=False` (the longest-match-only
mode); with `all=True` several overlapping matches from one start index
may be returned together. For every matcher, text and bounds, consecutive
matches `m1, m2` of `find(text, all=False, skip=True)` satisfy
`m2.start >= m1.end`. -/
theorem C9_amended_skip_nonoverlap (m : SM) (text : List Char)
    (fromidx toidx : Option Nat) :
    chainOk (SM.find m text false true fromidx toidx) = true := by
  simp only [SM.find]
  split
  · rfl
  · split <;> split
    all_goals first
      | rfl
      | exact findLoop_chain m text _ (text.length + 1) _ [] rfl
          (fun mt hm => by simp at hm)

/-! ## Claim C4 (amended): the root invariant over operation sequences -/

/-- `add` never changes the root's own value slot: an all-ignored entry is
skipped, and otherwise the update happens below the root. -/
theorem add1_root_value (m : SM) (entry : List Char) (d : PyVal) (ap : Bool) :
    ((m.add1 entry d ap).1).root.value = m.root.value := by
  unfold SM.add1
  split
  · rfl
  · rfl

/-- `setPath` along a nonempty path leaves the start node's value alone. -/
theorem setPath_value_cons (v : PyVal) (nd : Node) (c : Char) (cs : List Char) :
    (setPath v nd (c :: cs)).value = nd.value := rfl

/-- `__setitem__` with a key that keeps at least one element does not
touch the root's value. -/
theorem setitem_root_value (m : SM) (key : List Char) (v : PyVal)
    (hk : effPath m.ignf m.mapf key ≠ []) :
    (m.setitem key v).root.value = m.root.value := by
  rcases hp : effPath m.ignf m.mapf key with _ | ⟨c, cs⟩
  · exact absurd hp hk
  · show (setPath v m.root (effPath m.ignf m.mapf key)).value = m.root.value
    rw [hp]
    exact setPath_value_cons v m.root c cs

/-- A public operation never changes the configured functions. -/
theorem step_funcs (m : SM) (op : SOp) :
    (SM.step m op).ignorefunc = m.ignorefunc ∧
      (SM.step m op).mapfunc = m.mapfunc := by
  cases op with
  | addOp e d a =>
    cases hp : effPath m.ignf m.mapf e with
    | nil => simp [SM.step, SM.add1, hp]
    | cons c cs => simp [SM.step, SM.add1, hp]
  | setOp k v => exact ⟨rfl, rfl⟩
  | findOp t a sk f t2 => exact ⟨rfl, rfl⟩
  | replaceOp t f t2 => exact ⟨rfl, rfl⟩
  | getOp k dflt => exact ⟨rfl, rfl⟩
  | getitemOp k => exact ⟨rfl, rfl⟩

/-- Matchers with the same ignore configuration ignore the same way. -/
theorem ignf_eq_of (m1 m2 : SM) (h : m1.ignorefunc = m2.ignorefunc) :
    m1.ignf = m2.ignf := by
  funext c
  unfold SM.ignf
  rw [h]

/-- Matchers with the same map configuration map the same way. -/
theorem mapf_eq_of (m1 m2 : SM) (h : m1.mapfunc = m2.mapfunc) :
    m1.mapf = m2.mapf := by
  funext c
  unfold SM.mapf
  rw [h]

/-- One public operation preserves the root's value slot, provided any
`__setitem__` key keeps at least one element. -/
theorem step_root_value (m : SM) (op : SOp)
    (hset : ∀ k v, op = SOp.setOp k v → effPath m.ignf m.mapf k ≠ []) :
    (SM.step m op).root.value = m.root.value := by
  cases op with
  | addOp e d a => exact add1_root_value m e d a
  | setOp k v => exact setitem_root_value m k v (hset k v rfl)
  | findOp t a sk f t2 => rfl
  | replaceOp t f t2 => rfl
  | getOp k dflt => rfl
  | getitemOp k => rfl

/-- Claim C4, amended as the counterexample forces: over every sequence
of public operations in which each `__setitem__` key has at least one
non-ignored element (`add` may still receive empty or all-ignored
entries, `find`/`replace`/`get`/`__getitem__` are unrestricted), a root
that carries no entry data keeps carrying none. The restriction on
`__setitem__` cannot be dropped, as the counterexample above shows. -/
theorem C4_amended_root_invariant :
    ∀ (ops : List SOp) (m : SM), m.root.value = Option.none →
      (∀ k v, SOp.setOp k v ∈ ops → effPath m.ignf m.mapf k ≠ []) →
      (ops.foldl SM.step m).root.value = Option.none := by
  intro ops
  induction ops with
  | nil => intro m h _; simpa using h
  | cons op ops ih =>
    intro m hroot hset
    simp only [List.foldl_cons]
    apply ih
    · rw [step_root_value m op
        (fun k v hop => hset k v (by rw [hop]; exact List.mem_cons_self _ _))]
      exact hroot
    · intro k v hmem
      have hfun := step_funcs m op
      rw [ignf_eq_of _ m hfun.1, mapf_eq_of _ m hfun.2]
      exact hset k v (List.mem_cons_of_mem op hmem)

/-- Witness for the amended C4: a concrete operation sequence (an `add`,
a nonempty-key `__setitem__`, an empty-entry `add` and a `find`) on a
fresh matcher leaves the root without entry data. -/
theorem C4_amended_witness :
    (([SOp.addOp "ab".toList (.int 1) false, SOp.setOp ['c'] (.int 2),
        SOp.addOp [] (.int 3) false,
        SOp.findOp "ab".toList true true Option.none Option.none,
        SOp.getOp ['a'] .none]).foldl SM.step smFresh).root.value
      = Option.none :=
  C4_amended_root_invariant _ smFresh rfl (by
    intro k v hmem
    simp only [List.mem_cons, List.not_mem_nil, or_false] at hmem
    rcases hmem with h | h | h | h | h <;> simp at h
    rcases h with ⟨rfl, rfl⟩
    decide)

end stringmatcher


namespace stringmatcher

/-! ## Claim C6: append accumulation -/

/-- Descending one step in a lookup is reading below the child, where a
missing child behaves like a fresh node (no path, no value). -/
theorem findValue_cons_getD (nd : Node) (c : Char) (cs : List Char) :
    nd.findValue (c :: cs) = ((nd.childGet c).getD Node.empty).findValue cs := by
  cases hg : nd.childGet c with
  | none =>
    simp only [Node.findValue, Node.findPath, hg, Option.getD]
    cases cs with
    | nil => rfl
    | cons c2 cs2 =>
      simp [Node.findPath, Node.empty, Node.childGet, Node.children, alistGet]
  | some ch =>
    simp only [Node.findValue, Node.findPath, hg, Option.getD]

/-- Lookup below an existing child. -/
theorem findValue_cons_some (nd ch : Node) (c : Char) (cs : List Char)
    (h : nd.childGet c = some ch) : nd.findValue (c :: cs) = ch.findValue cs := by
  simp only [Node.findValue, Node.findPath, h]

/-- The insertion walk updates exactly the value at the end of its path,
by `addVal` applied to the value previously there (absent path behaving
as an absent value), and reports exactly `addVal`'s error. -/
theorem addPath_findValue (ap : Bool) (d : PyVal) :
    ∀ (p : List Char) (nd : Node),
      ((addPath ap d nd p).1).findValue p
          = (addVal ap (nd.findValue p) d).1 ∧
        (addPath ap d nd p).2 = (addVal ap (nd.findValue p) d).2 := by
  intro p
  induction p with
  | nil => intro nd; exact ⟨rfl, rfl⟩
  | cons c cs ih =>
    intro nd
    have hchild : (Node.mk (alistSet nd.children c
          (addPath ap d ((nd.childGet c).getD Node.empty) cs).1) nd.value).childGet c
        = some (addPath ap d ((nd.childGet c).getD Node.empty) cs).1 := by
      simp [Node.childGet, Node.children, alistGet_set_self]
    constructor
    · show (Node.mk (alistSet nd.children c
          (addPath ap d ((nd.childGet c).getD Node.empty) cs).1) nd.value).findValue (c :: cs)
        = (addVal ap (nd.findValue (c :: cs)) d).1
      rw [findValue_cons_some _ _ _ _ hchild, findValue_cons_getD]
      exact (ih _).1
    · show (addPath ap d ((nd.childGet c).getD Node.empty) cs).2
        = (addVal ap (nd.findValue (c :: cs)) d).2
      rw [findValue_cons_getD]
      exact (ih _).2

/-- `add` never changes the configured functions. -/
theorem add1_funcs (m : SM) (entry : List Char) (d : PyVal) (ap : Bool) :
    (m.add1 entry d ap).1.ignorefunc = m.ignorefunc ∧
      (m.add1 entry d ap).1.mapfunc = m.mapfunc := by
  cases hp : effPath m.ignf m.mapf entry with
  | nil => simp [SM.add1, hp]
  | cons c cs => simp [SM.add1, hp]

/-- `add` on an entry with a nonempty effective path stores
`addVal`'s result at that path and raises exactly `addVal`'s error. -/
theorem add1_findValue (m : SM) (entry : List Char) (d : PyVal) (ap : Bool)
    (hp : effPath m.ignf m.mapf entry ≠ []) :
    ((m.add1 entry d ap).1).root.findValue (effPath m.ignf m.mapf entry)
        = (addVal ap (m.root.findValue (effPath m.ignf m.mapf entry)) d).1 ∧
      (m.add1 entry d ap).2
        = (addVal ap (m.root.findValue (effPath m.ignf m.mapf entry)) d).2 := by
  rcases hpe : effPath m.ignf m.mapf entry with _ | ⟨c, cs⟩
  · exact absurd hpe hp
  · simp only [SM.add1, hpe]
    exact ⟨(addPath_findValue ap d (c :: cs) m.root).1,
      (addPath_findValue ap d (c :: cs) m.root).2⟩

/-- Folding `add(entry, d, append=True)` over `ds` onto a matcher whose
entry already stores the list `acc` succeeds throughout and extends the
stored list by `ds`, preserving the configuration. -/
theorem addAll_value (entry : List Char) :
    ∀ (ds : List PyVal) (m : SM) (acc : List PyVal),
      effPath m.ignf m.mapf entry ≠ [] →
      m.root.findValue (effPath m.ignf m.mapf entry) = some (.list acc) →
      (SM.addAll m entry ds).2 = true ∧
        (SM.addAll m entry ds).1.root.findValue (effPath m.ignf m.mapf entry)
          = some (.list (acc ++ ds)) ∧
        (SM.addAll m entry ds).1.ignorefunc = m.ignorefunc ∧
        (SM.addAll m entry ds).1.mapfunc = m.mapfunc := by
  intro ds
  induction ds with
  | nil =>
    intro m acc hp hv
    exact ⟨rfl, by simpa using hv, rfl, rfl⟩
  | cons d ds ih =>
    intro m acc hp hv
    have hf := add1_funcs m entry d true
    have h1 := add1_findValue m entry d true hp
    rw [hv] at h1
    have hiEq : effPath (m.add1 entry d true).1.ignf (m.add1 entry d true).1.mapf entry
        = effPath m.ignf m.mapf entry := by
      rw [ignf_eq_of _ m hf.1, mapf_eq_of _ m hf.2]
    have hp1 : effPath (m.add1 entry d true).1.ignf (m.add1 entry d true).1.mapf entry ≠ [] := by
      rw [hiEq]; exact hp
    have hv1 : (m.add1 entry d true).1.root.findValue
        (effPath (m.add1 entry d true).1.ignf (m.add1 entry d true).1.mapf entry)
        = some (.list (acc ++ [d])) := by
      rw [hiEq]; exact h1.1.trans rfl
    have hrec := ih (m.add1 entry d true).1 (acc ++ [d]) hp1 hv1
    refine ⟨?_, ?_, ?_, ?_⟩
    · show ((m.add1 entry d true).2.isNone
          && (SM.addAll (m.add1 entry d true).1 entry ds).2) = true
      rw [h1.2, hrec.1]
      rfl
    · show (SM.addAll (m.add1 entry d true).1 entry ds).1.root.findValue
          (effPath m.ignf m.mapf entry) = some (.list (acc ++ d :: ds))
      have h2 := hrec.2.1
      rw [hiEq] at h2
      exact h2.trans (by simp)
    · show (SM.addAll (m.add1 entry d true).1 entry ds).1.ignorefunc = m.ignorefunc
      exact hrec.2.2.1.trans hf.1
    · show (SM.addAll (m.add1 entry d true).1 entry ds).1.mapfunc = m.mapfunc
      exact hrec.2.2.2.trans hf.2

/-- A stored value at the effective path makes `__getitem__` succeed with
it. -/
theorem getitem_of_findValue (m : SM) (item : List Char) (v : PyVal)
    (h : m.root.findValue (effPath m.ignf m.mapf item) = some v) :
    m.getitem item = .ok v := by
  unfold Node.findValue at h
  cases hfp : m.root.findPath (effPath m.ignf m.mapf item) with
  | none => rw [hfp] at h; exact Option.noConfusion h
  | some nd =>
    rw [hfp] at h
    dsimp only at h
    simp [SM.getitem, SM.getNode, hfp, h]

/-- Claim C6: on a fresh matcher, inserting an entry `N >= 1` times with
`append=True` and data `d1, ..., dN` raises nothing and leaves the
entry's stored data equal to the list `[d1, ..., dN]` in insertion order
(the first call turns the absent value into a one-element list, each
later call appends). Entries with an empty effective path are excluded:
for those `add` is a silent no-op and nothing is ever stored. -/
theorem C6_append_accumulation (ign : Option (Char → Bool))
    (mp : Option (Char → Char)) (md dd : PyVal) (entry : List Char)
    (ds : List PyVal) (hds : ds ≠ [])
    (hp : effPath (SM.init ign mp md dd).ignf (SM.init ign mp md dd).mapf entry ≠ []) :
    (SM.addAll (SM.init ign mp md dd) entry ds).2 = true ∧
      SM.getitem (SM.addAll (SM.init ign mp md dd) entry ds).1 entry
        = .ok (.list ds) := by
  rcases ds with _ | ⟨d, ds⟩
  · exact absurd rfl hds
  · have hf := add1_funcs (SM.init ign mp md dd) entry d true
    have hv0 : (SM.init ign mp md dd).root.findValue
        (effPath (SM.init ign mp md dd).ignf (SM.init ign mp md dd).mapf entry)
        = Option.none := by
      rcases hpe : effPath (SM.init ign mp md dd).ignf (SM.init ign mp md dd).mapf entry
        with _ | ⟨c, cs⟩
      · exact absurd hpe hp
      · rfl
    have h1 := add1_findValue (SM.init ign mp md dd) entry d true hp
    rw [hv0] at h1
    have hiEq : effPath ((SM.init ign mp md dd).add1 entry d true).1.ignf
          ((SM.init ign mp md dd).add1 entry d true).1.mapf entry
        = effPath (SM.init ign mp md dd).ignf (SM.init ign mp md dd).mapf entry := by
      rw [ignf_eq_of _ _ hf.1, mapf_eq_of _ _ hf.2]
    have hp1 : effPath ((SM.init ign mp md dd).add1 entry d true).1.ignf
        ((SM.init ign mp md dd).add1 entry d true).1.mapf entry ≠ [] := by
      rw [hiEq]; exact hp
    have hv1 : ((SM.init ign mp md dd).add1 entry d true).1.root.findValue
        (effPath ((SM.init ign mp md dd).add1 entry d true).1.ignf
          ((SM.init ign mp md dd).add1 entry d true).1.mapf entry)
        = some (.list [d]) := by
      rw [hiEq]; exact h1.1.trans rfl
    have hrec := addAll_value entry ds ((SM.init ign mp md dd).add1 entry d true).1
      [d] hp1 hv1
    constructor
    · show (((SM.init ign mp md dd).add1 entry d true).2.isNone
          && (SM.addAll ((SM.init ign mp md dd).add1 entry d true).1 entry ds).2) = true
      rw [h1.2, hrec.1]
      rfl
    · apply getitem_of_findValue
      have h2 := hrec.2.1
      rw [hiEq] at h2
      have h3 : effPath (SM.addAll ((SM.init ign mp md dd).add1 entry d true).1 entry ds).1.ignf
            (SM.addAll ((SM.init ign mp md dd).add1 entry d true).1 entry ds).1.mapf entry
          = effPath (SM.init ign mp md dd).ignf (SM.init ign mp md dd).mapf entry := by
        rw [ignf_eq_of _ _ (hrec.2.2.1.trans hf.1), mapf_eq_of _ _ (hrec.2.2.2.trans hf.2)]
      show (SM.addAll ((SM.init ign mp md dd).add1 entry d true).1 entry ds).1.root.findValue
          (effPath (SM.addAll ((SM.init ign mp md dd).add1 entry d true).1 entry ds).1.ignf
            (SM.addAll ((SM.init ign mp md dd).add1 entry d true).1 entry ds).1.mapf entry)
        = some (.list (d :: ds))
      rw [h3]
      exact h2.trans (by simp)

/-- Witness for C6: appending `1` then `2` under the entry `"ab"` on a
fresh matcher stores `[1, 2]`. -/
theorem C6_witness :
    (SM.addAll smFresh "ab".toList [.int 1, .int 2]).2 = true ∧
      SM.getitem (SM.addAll smFresh "ab".toList [.int 1, .int 2]).1 "ab".toList
        = .ok (.list [.int 1, .int 2]) :=
  C6_append_accumulation Option.none Option.none .none .none "ab".toList
    [.int 1, .int 2] (by simp) (by decide)

end stringmatcher

namespace stringmatcher

/-! ## Claim C7: `__getitem__` vs `get` -/

/-- Claim C7: `__getitem__` raises `KeyError` exactly when the key has no
trie path or its node carries no entry data (`keyAbsent`), and raises
nothing else (first conjunct: the result is that `KeyError` or a normal
value). `get` returns the supplied default exactly in the `keyAbsent`
situations and the stored data otherwise, raising nothing (it is total by
construction). -/
theorem C7_getitem_get (m : SM) (item : List Char) (dflt : PyVal) :
    (SM.getitem m item = .error .keyError ∨ ∃ v, SM.getitem m item = .ok v) ∧
    (SM.getitem m item = .error .keyError ↔ SM.keyAbsent m item) ∧
    (SM.keyAbsent m item → SM.get m item dflt = dflt) ∧
    (∀ nd v, m.getNode item = some nd → nd.value = some v →
      SM.get m item dflt = v ∧ SM.getitem m item = .ok v) := by
  cases hn : m.getNode item with
  | none =>
    refine ⟨Or.inl ?_, ?_, ?_, ?_⟩
    · simp [SM.getitem, hn]
    · constructor
      · intro _; exact Or.inl hn
      · intro _; simp [SM.getitem, hn]
    · intro _; simp [SM.get, hn]
    · intro nd v hnd hv
      exact Option.noConfusion hnd
  | some nd =>
    cases hv : nd.value with
    | none =>
      refine ⟨Or.inl ?_, ?_, ?_, ?_⟩
      · simp [SM.getitem, hn, hv]
      · constructor
        · intro _; exact Or.inr ⟨nd, hn, hv⟩
        · intro _; simp [SM.getitem, hn, hv]
      · intro _; simp [SM.get, hn, hv]
      · intro nd2 v2 hnd hv2
        injection hnd with h
        subst h
        rw [hv] at hv2
        exact Option.noConfusion hv2
    | some v =>
      refine ⟨Or.inr ⟨v, by simp [SM.getitem, hn, hv]⟩, ?_, ?_, ?_⟩
      · constructor
        · intro h
          simp [SM.getitem, hn, hv] at h
        · intro habs
          rcases habs with h | ⟨nd2, h2, h3⟩
          · rw [hn] at h; exact Option.noConfusion h
          · rw [hn] at h2
            injection h2 with h2
            subst h2
            rw [hv] at h3
            exact Option.noConfusion h3
      · intro habs
        rcases habs with h | ⟨nd2, h2, h3⟩
        · rw [hn] at h; exact Option.noConfusion h
        · rw [hn] at h2
          injection h2 with h2
          subst h2
          rw [hv] at h3
          exact Option.noConfusion h3
      · intro nd2 v2 hnd hv2
        injection hnd with h
        subst h
        rw [hv] at hv2
        injection hv2 with h
        subst h
        exact ⟨by simp [SM.get, hn, hv], by simp [SM.getitem, hn, hv]⟩

/-- Witness for C7: on the matcher holding `"ab" → 7`, `get` on `"ab"`
returns the stored `7` and on the absent key `"zz"` returns the default,
where `__getitem__` raises `KeyError`. -/
theorem C7_witness :
    SM.get smAB "ab".toList (.int 9) = .int 7 ∧
    SM.get smAB "zz".toList (.int 9) = .int 9 ∧
    SM.getitem smAB "zz".toList = .error .keyError :=
  ⟨((C7_getitem_get smAB "ab".toList (.int 9)).2.2.2
      (Node.mk [] (some (.int 7))) (.int 7) rfl rfl).1,
   (C7_getitem_get smAB "zz".toList (.int 9)).2.2.1 (Or.inl rfl),
   ((C7_getitem_get smAB "zz".toList (.int 9)).2.1).mpr (Or.inl rfl)⟩

end stringmatcher

namespace tokenmatcher

/-! ## Claim C10: `TokenMatcher.find` and the missing `continuations`
attribute -/

/-- When no scanned token is a key of `_dict`, the loop just returns its
accumulator. -/
theorem findLoop_clean (m : TM) :
    ∀ (toks : List String) (i : Nat) (acc : List TMMatch),
      (∀ tok ∈ toks, alistGet m.dict (m.mapf tok) = Option.none) →
      TM.findLoop m toks i acc = .ok acc := by
  intro toks
  induction toks with
  | nil => intro i acc h; rfl
  | cons t ts ih =>
    intro i acc h
    have ht := h t (by simp)
    simp only [TM.findLoop, ht]
    exact ih (i + 1) acc (fun tok hm => h tok (List.mem_cons_of_mem t hm))

/-- As soon as some scanned token is a key of `_dict`, the loop dies with
`AttributeError`. -/
theorem findLoop_err (m : TM) :
    ∀ (toks : List String) (i : Nat) (acc : List TMMatch),
      (∃ tok ∈ toks, (alistGet m.dict (m.mapf tok)).isSome) →
      TM.findLoop m toks i acc = .error .attributeError := by
  intro toks
  induction toks with
  | nil =>
    intro i acc h
    rcases h with ⟨tok, hm, _⟩
    simp at hm
  | cons t ts ih =>
    intro i acc h
    cases hg : alistGet m.dict (m.mapf t) with
    | some nd => simp [TM.findLoop, hg]
    | none =>
      rcases h with ⟨tok, hm, hs⟩
      rcases List.mem_cons.mp hm with rfl | hm2
      · rw [hg] at hs; simp at hs
      · simp only [TM.findLoop, hg]
        exact ih (i + 1) acc ⟨tok, hm2, hs⟩

/-- Claim C10: `find` raises `AttributeError` whenever some input token,
after the map function, is a key of `_dict` -- the keys of `_dict` are
exactly the first retained tokens of previously added entries, and the
third conjunct shows every successful `add` leaves its first retained
token as such a key, so it keeps `isSome` forever (`alistSet` only adds
or overwrites keys). When no mapped input token is a key, `find` returns
the empty list. -/
theorem C10_find_attribute_error (m : TM) (tokens : List String)
    (all : Bool) (fromidx toidx : Option Nat) :
    ((∃ tok ∈ tokens, (alistGet m.dict (m.mapf tok)).isSome) →
        TM.find m tokens all fromidx toidx = .error .attributeError) ∧
    ((∀ tok ∈ tokens, alistGet m.dict (m.mapf tok) = Option.none) →
        TM.find m tokens all fromidx toidx = .ok []) ∧
    (∀ (entry : List String) (d : PyVal) (m2 : TM), TM.add m entry d = .ok m2 →
        ∃ t0 rest, effToks m entry = t0 :: rest ∧ (alistGet m2.dict t0).isSome) := by
  refine ⟨?_, ?_, ?_⟩
  · intro h; exact findLoop_err m tokens 0 [] h
  · intro h; exact findLoop_clean m tokens 0 [] h
  · intro entry d m2 hadd
    cases he : effToks m entry with
    | nil =>
      unfold TM.add at hadd
      rw [he] at hadd
      exact Except.noConfusion hadd
    | cons t0 rest =>
      unfold TM.add at hadd
      rw [he] at hadd
      injection hadd with h2
      subst h2
      refine ⟨t0, rest, rfl, ?_⟩
      rw [alistGet_set_self]
      rfl

/-- Witness for C10: on the matcher holding the entry `["a"] → 1`,
scanning `["a"]` raises `AttributeError` and scanning `["b"]` returns no
matches. -/
theorem C10_witness :
    TM.find tmSingleA ["a"] true Option.none Option.none
        = .error .attributeError ∧
      TM.find tmSingleA ["b"] true Option.none Option.none = .ok [] :=
  ⟨(C10_find_attribute_error tmSingleA ["a"] true Option.none Option.none).1
      ⟨"a", by simp, by rfl⟩,
   (C10_find_attribute_error tmSingleA ["b"] true Option.none Option.none).2.1
      (by
        intro tok hm
        rcases List.mem_singleton.mp hm with rfl
        rfl)⟩

end tokenmatcher
